import Mathlib

/-!
Shallow embedding of `contrib/plugins/cachetrace.c`, a QEMU TCG plugin that
records the physical addresses of guest memory accesses to a binary trace
file while a capture flag (toggled by a magic instruction) is set.

Modelling conventions:
* bytes are `Nat` (values below 256 where produced by the code);
* a `uint64_t` value written with `fwrite(&x, 8, 1, f)` becomes the 8-byte
  little-endian encoding `le64 x`;
* a `FILE *` becomes `File` (path, byte contents, current position); `NULL`
  file pointers become `Option File = none`;
* calls into the emulator (`qemu_plugin_get_hwaddr`) are modelled by passing
  the emulator's answer (`Option HWAddr`) to the callback; a `NULL` result
  is `none`;
* `fwrite` may fail at the libc level; the C code never inspects its return
  value, so each write site takes a `Bool` saying whether the write took
  effect, and the embedding shows the code behaves identically either way
  except for the bytes landing in the file.
-/

namespace CacheTrace

/-- Little-endian 8-byte encoding of a 64-bit value, as `fwrite` of a
`uint64_t` lays it out in the file. -/
def le64 (n : Nat) : List Nat :=
  [n % 256, n / 256 % 256, n / 65536 % 256, n / 16777216 % 256,
   n / 4294967296 % 256, n / 1099511627776 % 256,
   n / 281474976710656 % 256, n / 72057594037927936 % 256]

/-- Little-endian decoding of a byte list (inverse of `le64` below `2^64`). -/
def le64dec : List Nat → Nat
  | [] => 0
  | b :: bs => b + 256 * le64dec bs

/-- Increment of a `uint64_t` counter (wraps at `2^64`, as C unsigned
arithmetic does). -/
def u64inc (n : Nat) : Nat := (n + 1) % 18446744073709551616

/-- Model of an open `FILE *`: the path it was opened on, its byte contents
and the current file position. -/
structure File where
  path : String
  bytes : List Nat
  pos : Nat
deriving DecidableEq

/-- Result of `fopen(path, "wb")`: a fresh truncated file at position 0. -/
def emptyFile (path : String) : File := ⟨path, [], 0⟩

/-- Overwrite the bytes of a file at a given position (POSIX semantics:
zero padding if the position is past the end, bytes beyond the written
region are preserved). -/
def overwriteAt (bytes : List Nat) (pos : Nat) (bs : List Nat) : List Nat :=
  bytes.take pos ++ List.replicate (pos - bytes.length) 0 ++ bs ++
    bytes.drop (pos + bs.length)

/-- Model of `fwrite(buf, len, 1, f)` writing `bs` at the current position.
The C code never checks the return value; `ok` says whether the write took
effect (on failure the file is unchanged). -/
def fwrite (f : File) (bs : List Nat) (ok : Bool) : File :=
  if ok then ⟨f.path, overwriteAt f.bytes f.pos bs, f.pos + bs.length⟩ else f

/-- Model of `fseek(f, off, SEEK_SET)`. -/
def fseek (f : File) (off : Nat) : File := ⟨f.path, f.bytes, off⟩

/-- Values of `enum qemu_plugin_mem_rw` (QEMU_PLUGIN_MEM_R = 1). -/
def QEMU_PLUGIN_MEM_R : Nat := 1

/-- Values of `enum qemu_plugin_mem_rw`. -/
def QEMU_PLUGIN_MEM_W : Nat := 2

/-- Values of `enum qemu_plugin_mem_rw`. -/
def QEMU_PLUGIN_MEM_RW : Nat := 3

/-- The global `plugin_state` struct of the plugin. -/
structure PluginState where
  dump_file : Option File
  is_capturing : Bool
  rw : Nat
  trans_captured : Nat
deriving DecidableEq

/-- The zero-initialized C global `plugin_state` as it stands when
`qemu_plugin_install` is entered: `dump_file = NULL`, flags and counters 0
(the `rw` enum field is the invalid zero value until install sets it). -/
def initial_plugin_state : PluginState := ⟨none, false, 0, 0⟩

/-- Result of `qemu_plugin_get_hwaddr` when it is non-`NULL`: whether
`qemu_plugin_hwaddr_is_io` holds, and the `qemu_plugin_hwaddr_phys_addr`
value (a `uint64_t`). -/
structure HWAddr where
  io_region : Bool
  phys_addr : Nat
deriving DecidableEq

-- MAGIC_INST: movabsq rax, 0xcafebabedeadbeef
/-- The fixed magic instruction byte pattern `MAGIC_INST`. -/
def MAGIC_INST : List Nat :=
  [0x48, 0xb8, 0xef, 0xbe, 0xad, 0xde, 0xbe, 0xba, 0xfe, 0xca]

/-- Embedding of `is_magic_inst(data, size)`: `size == sizeof(MAGIC_INST)`
and `memcmp(data, MAGIC_INST, sizeof(MAGIC_INST)) == 0` (i.e. the first
`sizeof(MAGIC_INST)` bytes of the buffer agree with the pattern). -/
def is_magic_inst (data : List Nat) (size : Nat) : Bool :=
  size == MAGIC_INST.length && data.take MAGIC_INST.length == MAGIC_INST

/-- Diagnostic lines the plugin emits through `qemu_plugin_outs`. -/
inductive Diag where
  | magicExecuted
  | startCapturing
  | stopCapturing
  | numTransactions (n : Nat)
deriving DecidableEq

/-- Embedding of `cb_vcpu_magic_insn_exec`: flip `is_capturing` and emit the
diagnostics (including the transaction count when capture just stopped).
Returns the new state and the emitted diagnostic lines, in order. -/
def cb_vcpu_magic_insn_exec (st : PluginState) : PluginState × List Diag :=
  let st' := { st with is_capturing := !st.is_capturing }
  if st'.is_capturing then
    (st', [Diag.magicExecuted, Diag.startCapturing])
  else
    (st', [Diag.magicExecuted, Diag.stopCapturing,
           Diag.numTransactions st'.trans_captured])

/-- Embedding of `cb_vcpu_mem_access`. `resolve` is the emulator's answer to
`qemu_plugin_get_hwaddr(info, vaddr)` for this access; `writeOk` is whether
the (unchecked) `fwrite` of the physical address takes effect. -/
def cb_vcpu_mem_access (st : PluginState) (resolve : Option HWAddr)
    (writeOk : Bool) : PluginState :=
  if !st.is_capturing then st
  else
    match resolve with
    | none => st
    | some hw =>
      if hw.io_region then st
      else
        { st with
          dump_file := st.dump_file.map (fun f => fwrite f (le64 hw.phys_addr) writeOk),
          trans_captured := u64inc st.trans_captured }

/-- A per-instruction callback registration made by `cb_vcpu_tb_trans`:
either the magic-instruction execution callback, or a memory-access
callback parameterized by an `enum qemu_plugin_mem_rw` value. -/
inductive HookKind where
  | insnExecCb
  | memCb (rw : Nat)
deriving DecidableEq

/-- Embedding of `cb_vcpu_tb_trans`: a translation block is the list of its
instructions' byte sequences (`qemu_plugin_insn_data` of length
`qemu_plugin_insn_size`). Returns the registrations made, one per
instruction in block order, together with the (unmodified) plugin state. -/
def cb_vcpu_tb_trans (st : PluginState) (tb : List (List Nat)) :
    List HookKind × PluginState :=
  (tb.map fun insn =>
     if is_magic_inst insn insn.length then HookKind.insnExecCb
     else HookKind.memCb st.rw,
   st)

/-- Embedding of `cb_plugin_exit`: seek the dump file to its start,
overwrite the 8-byte header with `trans_captured`, close the file. Returns
the final on-disk contents of the trace file (`writeOk` is whether the
unchecked header `fwrite` takes effect). A `NULL` dump file would be
undefined behaviour in C; it is unreachable because the callback is only
registered after a successful install. -/
def cb_plugin_exit (st : PluginState) (writeOk : Bool) : List Nat :=
  match st.dump_file with
  | none => []
  | some f => (fwrite (fseek f 0) (le64 st.trans_captured) writeOk).bytes

/-- Error messages `qemu_plugin_install` prints to `stderr`. -/
inductive ErrMsg where
  | failedOpenDump (path : Option String)
  | unknownOption (opt : String)
  | missingDump
  | systemOnly
  | singleCpuOnly
  | unsupportedTarget (name : String)
deriving DecidableEq

/-- The fields of `qemu_info_t` that the plugin reads. -/
structure QemuInfo where
  system_emulation : Bool
  max_vcpus : Nat
  target_name : String
deriving DecidableEq

/-- Split a string at the first `=` sign, accumulator-style
(`g_strsplit(opt, "=", 2)`): key before the first `=`, rest after it
(`none` when there is no `=`, in which case `parts[1]` is `NULL` in C). -/
def splitEqAux : List Char → List Char → String × Option String
  | [], acc => (⟨acc.reverse⟩, none)
  | c :: cs, acc =>
    if c = '=' then (⟨acc.reverse⟩, some ⟨cs⟩) else splitEqAux cs (c :: acc)

/-- Split an option string `key=value` as `g_strsplit(opt, "=", 2)` does. -/
def splitEq (s : String) : String × Option String := splitEqAux s.data []

/-- The argument-parsing loop of `qemu_plugin_install`. `openable` models
which paths `fopen(path, "wb")` succeeds on; opening assigns a fresh file to
`plugin_state.dump_file`, unconditionally overwriting any previous value.
A `dump` option without `=` passes `NULL` to `fopen`, modelled as a failed
open. On error, returns the message printed and the state reached so far. -/
def install_args (openable : String → Bool) :
    List String → PluginState → Except (ErrMsg × PluginState) PluginState
  | [], st => .ok st
  | opt :: rest, st =>
    if (splitEq opt).1 = "dump" then
      match (splitEq opt).2 with
      | some path =>
        if openable path then
          install_args openable rest { st with dump_file := some (emptyFile path) }
        else .error (.failedOpenDump (some path), st)
      | none => .error (.failedOpenDump none, st)
    else .error (.unknownOption opt, st)

/-- Embedding of `qemu_plugin_install`: parse arguments, sanity-check the
options and target, initialize the plugin state and write the 8-byte zero
header. Returns the C return value (0 or -1), the resulting global state
and the messages printed to `stderr`. `headerWriteOk` is whether the
unchecked header `fwrite` takes effect. -/
def qemu_plugin_install (openable : String → Bool) (info : QemuInfo)
    (argv : List String) (st0 : PluginState) (headerWriteOk : Bool) :
    Int × PluginState × List ErrMsg :=
  match install_args openable argv st0 with
  | .error (e, st) => (-1, st, [e])
  | .ok st =>
    if st.dump_file.isNone then (-1, st, [ErrMsg.missingDump])
    else if !info.system_emulation then (-1, st, [ErrMsg.systemOnly])
    else if info.max_vcpus > 1 then (-1, st, [ErrMsg.singleCpuOnly])
    else if info.target_name ≠ "x86_64" then
      (-1, st, [ErrMsg.unsupportedTarget info.target_name])
    else
      let st1 : PluginState :=
        { st with is_capturing := false, rw := QEMU_PLUGIN_MEM_RW,
                  trans_captured := 0 }
      let st2 : PluginState :=
        { st1 with dump_file := st1.dump_file.map (fun f => fwrite f (le64 0) headerWriteOk) }
      (0, st2, [])

/-- An emulator-delivered callback event during a run: execution of an
instruction registered with the magic callback, or a memory access on an
instrumented instruction (with the emulator's address resolution answer and
whether the trace `fwrite`, if reached, takes effect). -/
inductive Event where
  | magicExec
  | memAccess (resolve : Option HWAddr) (writeOk : Bool)
deriving DecidableEq

/-- State transition for one delivered event (diagnostic output dropped). -/
def step (st : PluginState) : Event → PluginState
  | .magicExec => (cb_vcpu_magic_insn_exec st).1
  | .memAccess r ok => cb_vcpu_mem_access st r ok

/-- Run the plugin state through a sequence of delivered events. -/
def runEvents (st : PluginState) : List Event → PluginState
  | [] => st
  | e :: es => runEvents (step st e) es

/-- Number of magic-instruction executions in an event sequence. -/
def countToggles (es : List Event) : Nat :=
  es.countP fun e => match e with | .magicExec => true | _ => false

/-- All sink writes attempted during the events take effect. -/
def eventsOk : List Event → Bool
  | [] => true
  | .magicExec :: es => eventsOk es
  | .memAccess _ ok :: es => ok && eventsOk es

/-- The physical addresses the plugin records during an event sequence,
in temporal order, starting from a given value of the capturing flag:
exactly the non-IO resolved accesses delivered while capturing. -/
def capturedList : Bool → List Event → List Nat
  | _, [] => []
  | cap, .magicExec :: es => capturedList (!cap) es
  | false, .memAccess _ _ :: es => capturedList false es
  | true, .memAccess none _ :: es => capturedList true es
  | true, .memAccess (some hw) _ :: es =>
    if hw.io_region then capturedList true es
    else hw.phys_addr :: capturedList true es

/-- The record region of the trace file for a list of recorded addresses. -/
def recordsBytes (recs : List Nat) : List Nat := (recs.map le64).flatten

/-- The dump file mid-run, after the records `recs` have been appended
behind the zero header: position at end of file. -/
def traceFile (path : String) (recs : List Nat) : File :=
  ⟨path, le64 0 ++ recordsBytes recs, 8 + 8 * recs.length⟩

/-- Invariant tying the plugin state to the list of recorded addresses:
the dump file holds the zero header followed by the records, positioned at
the end, and the transaction counter equals the number of records. -/
def GoodState (st : PluginState) (recs : List Nat) : Prop :=
  (∃ p, st.dump_file = some (traceFile p recs)) ∧
    st.trans_captured = recs.length

/-! Helper lemmas. -/

theorem le64_length (n : Nat) : (le64 n).length = 8 := rfl

theorem le64dec_le64 (n : Nat) : le64dec (le64 n) = n % 2 ^ 64 := by
  simp only [le64, le64dec]
  omega

theorem recordsBytes_nil : recordsBytes [] = [] := rfl

theorem recordsBytes_append (recs : List Nat) (a : Nat) :
    recordsBytes (recs ++ [a]) = recordsBytes recs ++ le64 a := by
  simp [recordsBytes]

theorem recordsBytes_length (recs : List Nat) :
    (recordsBytes recs).length = 8 * recs.length := by
  induction recs with
  | nil => rfl
  | cons a recs ih =>
    show (le64 a ++ recordsBytes recs).length = 8 * (recs.length + 1)
    simp [ih, le64_length]
    ring

theorem traceFile_bytes_length (p : String) (recs : List Nat) :
    (traceFile p recs).bytes.length = 8 + 8 * recs.length := by
  simp [traceFile, recordsBytes_length, le64_length]

theorem overwriteAt_end (bytes bs : List Nat) :
    overwriteAt bytes bytes.length bs = bytes ++ bs := by
  simp [overwriteAt, List.drop_eq_nil_of_le]

theorem overwriteAt_zero (bytes bs : List Nat) :
    overwriteAt bytes 0 bs = bs ++ bytes.drop bs.length := by
  simp [overwriteAt]

theorem fwrite_at_end (f : File) (bs : List Nat) (h : f.pos = f.bytes.length) :
    fwrite f bs true = ⟨f.path, f.bytes ++ bs, f.pos + bs.length⟩ := by
  simp [fwrite, h, overwriteAt_end]

theorem capturedList_length_le (es : List Event) :
    ∀ cap, (capturedList cap es).length ≤ es.length := by
  induction es with
  | nil => intro cap; simp [capturedList]
  | cons e es ih =>
    intro cap
    cases e with
    | magicExec =>
      simp only [capturedList, List.length_cons]
      exact Nat.le_succ_of_le (ih _)
    | memAccess r ok =>
      cases cap with
      | false =>
        simp only [capturedList, List.length_cons]
        exact Nat.le_succ_of_le (ih _)
      | true =>
        cases r with
        | none =>
          simp only [capturedList, List.length_cons]
          exact Nat.le_succ_of_le (ih _)
        | some hw =>
          by_cases hio : hw.io_region
          · simp only [capturedList, hio, if_true, List.length_cons]
            exact Nat.le_succ_of_le (ih _)
          · simp only [capturedList, hio, if_false, List.length_cons]
            exact Nat.succ_le_succ (ih _)

theorem cb_vcpu_mem_access_is_capturing (st : PluginState)
    (r : Option HWAddr) (ok : Bool) :
    (cb_vcpu_mem_access st r ok).is_capturing = st.is_capturing := by
  unfold cb_vcpu_mem_access
  cases h : st.is_capturing
  · simpa using h
  · cases r with
    | none => simpa using h
    | some hw =>
      by_cases hio : hw.io_region
      · simpa [hio] using h
      · simp [hio]

theorem cb_vcpu_magic_insn_exec_fields (st : PluginState) :
    (cb_vcpu_magic_insn_exec st).1 =
      { st with is_capturing := !st.is_capturing } := by
  unfold cb_vcpu_magic_insn_exec
  cases st.is_capturing <;> simp

theorem runEvents_capturing (es : List Event) :
    ∀ st : PluginState, (runEvents st es).is_capturing =
      (if countToggles es % 2 = 1 then !st.is_capturing else st.is_capturing) := by
  induction es with
  | nil => intro st; simp [runEvents, countToggles]
  | cons e es ih =>
    intro st
    cases e with
    | magicExec =>
      have hc : countToggles (Event.magicExec :: es) = countToggles es + 1 := by
        simp [countToggles]
      rw [runEvents, step, hc, ih, cb_vcpu_magic_insn_exec_fields]
      rcases Nat.even_or_odd (countToggles es) with h | h
      · have h1 : countToggles es % 2 = 0 := Nat.even_iff.mp h
        have h2 : (countToggles es + 1) % 2 = 1 := by omega
        simp [h1, h2]
      · have h1 : countToggles es % 2 = 1 := Nat.odd_iff.mp h
        have h2 : (countToggles es + 1) % 2 = 0 := by omega
        simp [h1, h2]
    | memAccess r ok =>
      have hc : countToggles (Event.memAccess r ok :: es) = countToggles es := by
        simp [countToggles]
      rw [runEvents, step, hc, ih, cb_vcpu_mem_access_is_capturing]

theorem traceFile_pos (p : String) (recs : List Nat) :
    (traceFile p recs).pos = (traceFile p recs).bytes.length := by
  rw [traceFile_bytes_length]
  rfl

theorem fwrite_traceFile (p : String) (recs : List Nat) (a : Nat) :
    fwrite (traceFile p recs) (le64 a) true = traceFile p (recs ++ [a]) := by
  rw [fwrite_at_end _ _ (traceFile_pos p recs)]
  unfold traceFile
  rw [recordsBytes_append]
  simp only [File.mk.injEq, List.append_assoc, List.length_append,
    List.length_cons, List.length_nil, le64_length, true_and]
  omega

theorem runEvents_good (es : List Event) :
    ∀ (st : PluginState) (recs : List Nat), GoodState st recs →
      eventsOk es = true → recs.length + es.length < 2 ^ 64 →
      GoodState (runEvents st es) (recs ++ capturedList st.is_capturing es) := by
  induction es with
  | nil =>
    intro st recs hg _ _
    have h2 : capturedList st.is_capturing [] = [] := by
      cases st.is_capturing <;> rfl
    rw [runEvents, h2, List.append_nil]
    exact hg
  | cons e es ih =>
    intro st recs hg hok hb
    obtain ⟨⟨p, hf⟩, hcnt⟩ := hg
    cases e with
    | magicExec =>
      have hstep : step st Event.magicExec =
          { st with is_capturing := !st.is_capturing } := by
        rw [step, cb_vcpu_magic_insn_exec_fields]
      have hgood : GoodState { st with is_capturing := !st.is_capturing } recs :=
        ⟨⟨p, hf⟩, hcnt⟩
      have := ih _ recs hgood (by simpa [eventsOk] using hok) (by
        simp only [List.length_cons] at hb; omega)
      rw [runEvents, hstep]
      cases hcap : st.is_capturing <;>
        simpa [capturedList, hcap] using this
    | memAccess r ok =>
      have hok' : ok = true ∧ eventsOk es = true := by
        simpa [eventsOk, Bool.and_eq_true] using hok
      have hb' : recs.length + es.length < 2 ^ 64 := by
        simp only [List.length_cons] at hb; omega
      cases hcap : st.is_capturing with
      | false =>
        have hstep : step st (Event.memAccess r ok) = st := by
          rw [step]
          unfold cb_vcpu_mem_access
          simp [hcap]
        rw [runEvents, hstep]
        have := ih st recs ⟨⟨p, hf⟩, hcnt⟩ hok'.2 hb'
        simpa [capturedList, hcap] using this
      | true =>
        cases r with
        | none =>
          have hstep : step st (Event.memAccess none ok) = st := by
            rw [step]; unfold cb_vcpu_mem_access; simp [hcap]
          rw [runEvents, hstep]
          have := ih st recs ⟨⟨p, hf⟩, hcnt⟩ hok'.2 hb'
          simpa [capturedList, hcap] using this
        | some hw =>
          by_cases hio : hw.io_region
          · have hstep : step st (Event.memAccess (some hw) ok) = st := by
              rw [step]; unfold cb_vcpu_mem_access; simp [hcap, hio]
            rw [runEvents, hstep]
            have := ih st recs ⟨⟨p, hf⟩, hcnt⟩ hok'.2 hb'
            simpa [capturedList, hcap, hio] using this
          · have hb2 : recs.length + (es.length + 1) < 2 ^ 64 := by
              simpa using hb
            have hcnt' : u64inc st.trans_captured = recs.length + 1 := by
              rw [hcnt]
              unfold u64inc
              have h64 : (2 : Nat) ^ 64 = 18446744073709551616 := by norm_num
              omega
            have hstep : step st (Event.memAccess (some hw) ok) =
                { st with
                  dump_file := some (traceFile p (recs ++ [hw.phys_addr])),
                  trans_captured := recs.length + 1 } := by
              rw [step]
              simp [cb_vcpu_mem_access, hcap, hio, hf, hok'.1,
                fwrite_traceFile, hcnt']
            rw [runEvents, hstep]
            have hgood :
                GoodState { st with
                  dump_file := some (traceFile p (recs ++ [hw.phys_addr])),
                  trans_captured := recs.length + 1 } (recs ++ [hw.phys_addr]) := by
              refine ⟨⟨p, rfl⟩, ?_⟩
              simp
            have := ih _ _ hgood hok'.2 (by simp only [List.length_append,
              List.length_cons, List.length_nil]; omega)
            simp only [capturedList, hcap, hio, if_false] at this ⊢
            simpa [List.append_assoc] using this

theorem install_args_fields (openable : String → Bool) :
    ∀ (argv : List String) (st st' : PluginState),
      install_args openable argv st = Except.ok st' →
      st'.is_capturing = st.is_capturing ∧ st'.rw = st.rw ∧
      st'.trans_captured = st.trans_captured ∧
      (st'.dump_file = st.dump_file ∨ ∃ p, st'.dump_file = some (emptyFile p)) := by
  intro argv
  induction argv with
  | nil =>
    intro st st' h
    rw [install_args] at h
    cases h
    exact ⟨rfl, rfl, rfl, Or.inl rfl⟩
  | cons opt rest ih =>
    intro st st' h
    rw [install_args] at h
    split at h
    · split at h
      · split at h
        · obtain ⟨h1, h2, h3, h4⟩ := ih _ _ h
          refine ⟨h1, h2, h3, Or.inr ?_⟩
          rcases h4 with h4 | h4
          · exact ⟨_, h4⟩
          · exact h4
        · exact absurd h (by simp)
      · exact absurd h (by simp)
    · exact absurd h (by simp)

theorem qemu_plugin_install_ok (openable : String → Bool) (info : QemuInfo)
    (argv : List String) (ok : Bool) (st : PluginState) (errs : List ErrMsg)
    (h : qemu_plugin_install openable info argv initial_plugin_state ok =
      (0, st, errs)) :
    st.is_capturing = false ∧ st.rw = QEMU_PLUGIN_MEM_RW ∧
    st.trans_captured = 0 ∧ errs = [] ∧
    (ok = true → GoodState st []) := by
  unfold qemu_plugin_install at h
  cases hargs : install_args openable argv initial_plugin_state with
  | error e =>
    simp [hargs] at h
  | ok st1 =>
    simp only [hargs] at h
    have hfields := install_args_fields openable argv _ _ hargs
    rcases hfields.2.2.2 with hdf | ⟨p, hdf⟩
    · rw [hdf] at h
      simp [initial_plugin_state] at h
    · rw [hdf] at h
      by_cases hsys : info.system_emulation = true
      · by_cases hvc : info.max_vcpus > 1
        · simp [hsys, hvc] at h
        · by_cases htg : info.target_name = "x86_64"
          · simp only [Option.isNone_some, Bool.false_eq_true, if_false,
              hsys, Bool.not_true, hvc, htg, ne_eq, not_true_eq_false,
              if_neg, Option.map_some] at h
            obtain ⟨hst, herrs⟩ := by
              simpa [Prod.ext_iff] using h
            refine ⟨?_, ?_, ?_, herrs, ?_⟩
            · rw [hst.symm]
            · rw [hst.symm]
            · rw [hst.symm]
            · intro hok
              subst hok
              have hfw : fwrite (emptyFile p) (le64 0) true = traceFile p [] := by
                simp [fwrite, emptyFile, overwriteAt, traceFile, recordsBytes,
                  le64_length]
              refine ⟨⟨p, ?_⟩, ?_⟩
              · rw [hst.symm]
                simp [hfw]
              · rw [hst.symm]
                rfl
          · simp [hsys, hvc, htg] at h
      · simp [hsys] at h

/-- A concrete successfully-installed plugin state, as produced by
`qemu_plugin_install` on `dump=t` with a good environment; used by
witnesses. -/
def installedW : PluginState := ⟨some ⟨"t", le64 0, 8⟩, false, 3, 0⟩

/-- C1: while capturing is true, a memory-access callback whose virtual
address resolves to a non-IO physical address appends exactly one 8-byte
record (the physical address) at the end of the sink and increments
`trans_captured` by exactly one; if resolution fails or the address is an
IO region, no record is written and `trans_captured` is unchanged.  Stated
for an access whose record write succeeds and a counter below wrap-around. -/
theorem mem_access_records_non_io (st : PluginState) (f : File)
    (hcap : st.is_capturing = true) (hf : st.dump_file = some f)
    (hpos : f.pos = f.bytes.length) (hcnt : st.trans_captured + 1 < 2 ^ 64) :
    (∀ hw : HWAddr, hw.io_region = false →
       cb_vcpu_mem_access st (some hw) true =
         { st with
           dump_file := some ⟨f.path, f.bytes ++ le64 hw.phys_addr, f.pos + 8⟩,
           trans_captured := st.trans_captured + 1 } ∧
       (le64 hw.phys_addr).length = 8) ∧
    cb_vcpu_mem_access st none true = st ∧
    (∀ hw : HWAddr, hw.io_region = true →
       cb_vcpu_mem_access st (some hw) true = st) := by
  have hinc : u64inc st.trans_captured = st.trans_captured + 1 := by
    unfold u64inc
    have h64 : (2 : Nat) ^ 64 = 18446744073709551616 := by norm_num
    omega
  refine ⟨?_, ?_, ?_⟩
  · intro hw hio
    refine ⟨?_, le64_length _⟩
    simp [cb_vcpu_mem_access, hcap, hio, hf, hinc,
      fwrite_at_end f (le64 hw.phys_addr) hpos, le64_length]
  · simp [cb_vcpu_mem_access, hcap]
  · intro hw hio
    simp [cb_vcpu_mem_access, hcap, hio]

/-- Witness for C1 at a concrete capturing state and a resolvable non-IO
access: one 8-byte record appended, counter incremented by one. -/
theorem mem_access_records_non_io_witness :
    cb_vcpu_mem_access ⟨some ⟨"t", le64 0, 8⟩, true, 3, 0⟩
        (some ⟨false, 4096⟩) true =
      ⟨some ⟨"t", le64 0 ++ le64 4096, 16⟩, true, 3, 1⟩ := by
  have h := ((mem_access_records_non_io ⟨some ⟨"t", le64 0, 8⟩, true, 3, 0⟩
      ⟨"t", le64 0, 8⟩ rfl rfl rfl (by decide)).1 ⟨false, 4096⟩ rfl).1
  exact h.trans (by decide)

/-- Exit behaviour on a state satisfying the trace invariant: the final
file is the count header followed by the records. -/
theorem cb_plugin_exit_good (st : PluginState) (recs : List Nat)
    (hg : GoodState st recs) :
    cb_plugin_exit st true = le64 recs.length ++ recordsBytes recs := by
  obtain ⟨⟨p, hf⟩, hcnt⟩ := hg
  have hdrop : (le64 0 ++ recordsBytes recs).drop 8 = recordsBytes recs := by
    have h := List.drop_left (le64 0) (recordsBytes recs)
    rwa [le64_length] at h
  simp [cb_plugin_exit, hf, hcnt, fseek, fwrite, overwriteAt_zero, traceFile,
    le64_length, hdrop]

/-- C2: after the finalizer runs on any run from a successful install —
including runs that exit while still capturing and runs with zero recorded
accesses — the trace file's 8-byte header decodes to exactly the number of
8-byte records physically present after it, and the total file length
equals `8 + 8 * header`.  Stated for runs whose sink writes all succeed and
with fewer than `2^64` events. -/
theorem finalized_trace_wellformed (openable : String → Bool)
    (info : QemuInfo) (argv : List String) (st : PluginState)
    (errs : List ErrMsg) (es : List Event)
    (hins : qemu_plugin_install openable info argv initial_plugin_state true =
      (0, st, errs))
    (hok : eventsOk es = true) (hlen : es.length < 2 ^ 64) :
    le64dec ((cb_plugin_exit (runEvents st es) true).take 8) =
      ((cb_plugin_exit (runEvents st es) true).length - 8) / 8 ∧
    (cb_plugin_exit (runEvents st es) true).length =
      8 + 8 * (((cb_plugin_exit (runEvents st es) true).length - 8) / 8) := by
  obtain ⟨hcapt, hrw, hcnt0, herrs, hgood⟩ :=
    qemu_plugin_install_ok _ _ _ _ _ _ hins
  have hg0 := hgood rfl
  have hrun := runEvents_good es st [] hg0 hok (by simpa using hlen)
  rw [hcapt] at hrun
  have hfin := cb_plugin_exit_good _ _ (by simpa using hrun)
  have hlenrecs : (capturedList false es).length < 2 ^ 64 :=
    lt_of_le_of_lt (capturedList_length_le es false) hlen
  rw [hfin]
  have hL : (le64 (capturedList false es).length ++
      recordsBytes (capturedList false es)).length =
      8 + 8 * (capturedList false es).length := by
    simp [le64_length, recordsBytes_length]
  have htake : (le64 (capturedList false es).length ++
      recordsBytes (capturedList false es)).take 8 =
      le64 (capturedList false es).length := by
    have h := List.take_left (le64 (capturedList false es).length)
      (recordsBytes (capturedList false es))
    rwa [le64_length] at h
  have h64 : (2 : Nat) ^ 64 = 18446744073709551616 := by norm_num
  constructor
  · rw [htake, le64dec_le64, hL]
    omega
  · rw [hL]
    omega

/-- Witness for C2: a run that starts capture, records one access and exits
while still capturing; the finalized file has header 1 and length 16. -/
theorem finalized_trace_wellformed_witness :
    le64dec ((cb_plugin_exit (runEvents installedW
        [Event.magicExec, Event.memAccess (some ⟨false, 4096⟩) true])
        true).take 8) =
      ((cb_plugin_exit (runEvents installedW
        [Event.magicExec, Event.memAccess (some ⟨false, 4096⟩) true])
        true).length - 8) / 8 ∧
    (cb_plugin_exit (runEvents installedW
        [Event.magicExec, Event.memAccess (some ⟨false, 4096⟩) true])
        true).length =
      8 + 8 * (((cb_plugin_exit (runEvents installedW
        [Event.magicExec, Event.memAccess (some ⟨false, 4096⟩) true])
        true).length - 8) / 8) :=
  finalized_trace_wellformed (fun _ => true) ⟨true, 1, "x86_64"⟩ ["dump=t"]
    installedW []
    [Event.magicExec, Event.memAccess (some ⟨false, 4096⟩) true]
    (by decide) (by decide) (by decide)

/-- C3: after a successful install the state machine starts Idle
(`is_capturing = false`, `trans_captured = 0`), every magic-instruction
execution negates `is_capturing`, and after a run the state is Capturing
iff the number of toggle-callback invocations in the run is odd. -/
theorem capture_state_machine (openable : String → Bool) (info : QemuInfo)
    (argv : List String) (ok : Bool) (st : PluginState) (errs : List ErrMsg)
    (hins : qemu_plugin_install openable info argv initial_plugin_state ok =
      (0, st, errs)) :
    st.is_capturing = false ∧ st.trans_captured = 0 ∧
    (∀ s : PluginState,
      (cb_vcpu_magic_insn_exec s).1.is_capturing = !s.is_capturing) ∧
    (∀ es : List Event,
      (runEvents st es).is_capturing = decide (countToggles es % 2 = 1)) := by
  obtain ⟨hcapt, hrw, hcnt0, herrs, _⟩ :=
    qemu_plugin_install_ok _ _ _ _ _ _ hins
  refine ⟨hcapt, hcnt0, ?_, ?_⟩
  · intro s
    rw [cb_vcpu_magic_insn_exec_fields]
  · intro es
    rw [runEvents_capturing, hcapt]
    by_cases hp : countToggles es % 2 = 1 <;> simp [hp]

/-- Witness for C3: after one toggle from the installed state the plugin is
capturing. -/
theorem capture_state_machine_witness :
    (runEvents installedW [Event.magicExec]).is_capturing = true := by
  have h := (capture_state_machine (fun _ => true) ⟨true, 1, "x86_64"⟩
    ["dump=t"] true installedW [] (by decide)).2.2.2 [Event.magicExec]
  exact h.trans (by decide)

/-- C4: while capturing is false, the memory-access callback is a no-op for
every resolution result and write outcome: no trace record is written and
`trans_captured` is unchanged (the whole state is unchanged). -/
theorem idle_mem_access_noop (st : PluginState) (h : st.is_capturing = false)
    (resolve : Option HWAddr) (writeOk : Bool) :
    cb_vcpu_mem_access st resolve writeOk = st := by
  simp [cb_vcpu_mem_access, h]

/-- Witness for C4 at a concrete idle state and a resolvable access. -/
theorem idle_mem_access_noop_witness :
    cb_vcpu_mem_access installedW (some ⟨false, 4096⟩) true = installedW :=
  idle_mem_access_noop installedW rfl (some ⟨false, 4096⟩) true

/-- C5: for every byte sequence (with its length as the size argument,
matching the C calling convention where `size` bytes are valid at `data`),
`is_magic_inst` returns true iff the size equals the fixed 10-byte magic
pattern length and the bytes equal the pattern; any length mismatch or
differing byte yields false.  The function is pure (a Lean function). -/
theorem is_magic_inst_spec (data : List Nat) (size : Nat)
    (h : data.length = size) :
    MAGIC_INST.length = 10 ∧
    (is_magic_inst data size = true ↔
      size = MAGIC_INST.length ∧ data = MAGIC_INST) := by
  refine ⟨rfl, ?_⟩
  unfold is_magic_inst
  constructor
  · intro hm
    obtain ⟨h1, h2⟩ := by
      simpa [Bool.and_eq_true] using hm
    refine ⟨h1, ?_⟩
    have hl : data.length = MAGIC_INST.length := by rw [h, h1]
    rw [← hl] at h2
    rwa [List.take_length] at h2
  · rintro ⟨h1, h2⟩
    subst h2
    simp [h1, List.take_length]

/-- Witness for C5: the magic pattern itself, at its own length, matches. -/
theorem is_magic_inst_spec_witness : is_magic_inst MAGIC_INST 10 = true :=
  (is_magic_inst_spec MAGIC_INST 10 rfl).2.mpr ⟨by decide, rfl⟩

/-- C6: for every translated block, the instrumenter registers exactly one
callback per instruction, in block order: the toggle
(instruction-executed) callback and no memory hook when the instruction's
bytes match the magic pattern, and a memory-access hook parameterized by
the configured access filter otherwise; it does not modify the plugin
state. -/
theorem tb_trans_instrumentation (st : PluginState) (tb : List (List Nat)) :
    (cb_vcpu_tb_trans st tb).2 = st ∧
    (cb_vcpu_tb_trans st tb).1.length = tb.length ∧
    ∀ i : Nat, ((cb_vcpu_tb_trans st tb).1)[i]? =
      (tb[i]?).map fun insn =>
        if is_magic_inst insn insn.length then HookKind.insnExecCb
        else HookKind.memCb st.rw := by
  refine ⟨rfl, by simp [cb_vcpu_tb_trans], ?_⟩
  intro i
  simp [cb_vcpu_tb_trans, List.getElem?_map]

/-- C7 counterexample: at a concrete capturing state with a resolvable
non-IO access whose sink write fails, the callback still increments
`trans_captured` (0 to 1) and leaves no record — the failure is not
propagated and the recorder continues as if the record had been written,
contradicting the claim. -/
theorem write_failure_not_fatal_cex :
    cb_vcpu_mem_access ⟨some ⟨"t", le64 0, 8⟩, true, 3, 0⟩
        (some ⟨false, 4096⟩) false =
      ⟨some ⟨"t", le64 0, 8⟩, true, 3, 1⟩ := by decide

/-- C7 amended: a failed record write is silently ignored, not treated as
fatal: the callback does not propagate the failure and advances
`trans_captured` exactly as if the write had succeeded, leaving the sink
unchanged. -/
theorem write_failure_ignored (st : PluginState) (hw : HWAddr)
    (hcap : st.is_capturing = true) (hio : hw.io_region = false) :
    cb_vcpu_mem_access st (some hw) false =
      { st with trans_captured := u64inc st.trans_captured } := by
  simp [cb_vcpu_mem_access, hcap, hio, fwrite]

/-- Witness for the amended C7 at a concrete state with counter 5. -/
theorem write_failure_ignored_witness :
    cb_vcpu_mem_access ⟨some ⟨"t", le64 0, 8⟩, true, 3, 5⟩
        (some ⟨false, 8192⟩) false =
      ⟨some ⟨"t", le64 0, 8⟩, true, 3, 6⟩ := by
  have h := write_failure_ignored ⟨some ⟨"t", le64 0, 8⟩, true, 3, 5⟩
    ⟨false, 8192⟩ rfl rfl
  exact h.trans (by decide)

/-- C8 counterexample: with the dump option given twice (`dump=a` and
`dump=b`, both openable) and an otherwise valid environment, startup does
not detect the duplicate: it returns status 0 and prints nothing to
standard error, contradicting the claim that it reports an error and
aborts with nonzero status. -/
theorem duplicate_dump_accepted_cex :
    (qemu_plugin_install (fun _ => true) ⟨true, 1, "x86_64"⟩
        ["dump=a", "dump=b"] initial_plugin_state true).1 = 0 ∧
    (qemu_plugin_install (fun _ => true) ⟨true, 1, "x86_64"⟩
        ["dump=a", "dump=b"] initial_plugin_state true).2.2 = [] := by
  decide

/-- C8 amended: a duplicate dump option is not detected as an error: each
occurrence opens its file and replaces the previously stored handle, and
when both opens and the remaining checks succeed, startup completes with
status 0, no error output, and the last occurrence's file as the sink. -/
theorem duplicate_dump_last_wins (openable : String → Bool) (info : QemuInfo)
    (o1 o2 p1 p2 : String) (ok : Bool)
    (h1 : splitEq o1 = ("dump", some p1))
    (h2 : splitEq o2 = ("dump", some p2))
    (ho1 : openable p1 = true) (ho2 : openable p2 = true)
    (hsys : info.system_emulation = true) (hvc : info.max_vcpus ≤ 1)
    (htg : info.target_name = "x86_64") :
    qemu_plugin_install openable info [o1, o2] initial_plugin_state ok =
      (0, ⟨some (fwrite (emptyFile p2) (le64 0) ok), false,
           QEMU_PLUGIN_MEM_RW, 0⟩, []) := by
  have hargs : install_args openable [o1, o2] initial_plugin_state =
      Except.ok ⟨some (emptyFile p2), false, 0, 0⟩ := by
    simp [install_args, h1, h2, ho1, ho2, initial_plugin_state]
  unfold qemu_plugin_install
  rw [hargs]
  simp [hsys, htg, Nat.not_lt.mpr hvc]

/-- Witness for the amended C8 at concrete options `dump=a`, `dump=b`. -/
theorem duplicate_dump_last_wins_witness :
    qemu_plugin_install (fun _ => true) ⟨true, 1, "x86_64"⟩
        ["dump=a", "dump=b"] initial_plugin_state true =
      (0, ⟨some (fwrite (emptyFile "b") (le64 0) true), false,
           QEMU_PLUGIN_MEM_RW, 0⟩, []) :=
  duplicate_dump_last_wins (fun _ => true) ⟨true, 1, "x86_64"⟩
    "dump=a" "dump=b" "a" "b" true (by decide) (by decide) rfl rfl rfl
    (by decide) rfl

/-- C9: the toggle callback leaves `trans_captured`, the sink and the
access filter unchanged; its only state effect is negating `is_capturing`,
and its diagnostic output includes the current `trans_captured` exactly
when the transition is into Idle (capture just stopped). -/
theorem magic_toggle_frame (st : PluginState) :
    (cb_vcpu_magic_insn_exec st).1.dump_file = st.dump_file ∧
    (cb_vcpu_magic_insn_exec st).1.trans_captured = st.trans_captured ∧
    (cb_vcpu_magic_insn_exec st).1.rw = st.rw ∧
    (cb_vcpu_magic_insn_exec st).1.is_capturing = !st.is_capturing ∧
    (cb_vcpu_magic_insn_exec st).2 =
      (if st.is_capturing then
        [Diag.magicExecuted, Diag.stopCapturing,
         Diag.numTransactions st.trans_captured]
       else [Diag.magicExecuted, Diag.startCapturing]) := by
  unfold cb_vcpu_magic_insn_exec
  cases h : st.is_capturing <;> simp

/-- C10: after any successful startup the access-direction filter is
`QEMU_PLUGIN_MEM_RW` (hard-coded at initialization, with no option to
select it), so every non-magic instruction's memory hook is registered
with the read-and-write filter. -/
theorem access_filter_hardcoded_rw (openable : String → Bool)
    (info : QemuInfo) (argv : List String) (ok : Bool) (st : PluginState)
    (errs : List ErrMsg)
    (hins : qemu_plugin_install openable info argv initial_plugin_state ok =
      (0, st, errs)) :
    st.rw = QEMU_PLUGIN_MEM_RW ∧
    ∀ tb : List (List Nat),
      (cb_vcpu_tb_trans st tb).1 =
        tb.map fun insn =>
          if is_magic_inst insn insn.length then HookKind.insnExecCb
          else HookKind.memCb QEMU_PLUGIN_MEM_RW := by
  obtain ⟨_, hrw, _, _, _⟩ := qemu_plugin_install_ok _ _ _ _ _ _ hins
  refine ⟨hrw, fun tb => ?_⟩
  simp [cb_vcpu_tb_trans, hrw]

/-- Witness for C10: a one-instruction non-magic block from the installed
state gets a read-write memory hook. -/
theorem access_filter_hardcoded_rw_witness :
    (cb_vcpu_tb_trans installedW [[0x90]]).1 =
      [HookKind.memCb QEMU_PLUGIN_MEM_RW] := by
  have h := (access_filter_hardcoded_rw (fun _ => true) ⟨true, 1, "x86_64"⟩
    ["dump=t"] true installedW [] (by decide)).2 [[0x90]]
  exact h.trans (by decide)

end CacheTrace
